import Mathlib

/-!
Verification of the two call-site normalizer scripts
`scripts/fix-template-queries.py` (v1) and `scripts/fix-template-queries-v2.py` (v2).

Both scripts read one JavaScript file, rewrite `executeQuery` call sites by a
regular-expression substitution, write the file back and print a fixed message.
We embed the pure text-to-text transform of each script over `List Char`,
modelling Python `re.sub` semantics (leftmost match, resume after the match,
copy unmatched characters) for the three concrete patterns:

* v1 pattern1: `executeQuery\(([^,]+),\s*(\[[^\]]*\])\s*\);`
  replaced by `executeQuery(\1, \2, mapRowToObject);`
* v1 pattern2: `executeQuery\(([^,]+),\s*(\[[^\]]*\])\s*\)([^;])`
  replaced by `executeQuery(\1, \2, mapRowToObject)\3`
* v2 pattern:  `executeQuery\((query|.*?),\s*(\[[\s\S]*?\])\s*\)`
  replaced by the guarded replacer: the match itself when the match contains
  `mapRowToObject`, else `executeQuery({g1}, {g2}, mapRowToObject)`.

For these patterns the greedy pieces (`[^,]+`, `[^\]]*`, `\s*`) are
deterministic (each is followed by a literal that its character class
excludes), and the lazy pieces (`.*?`, `[\s\S]*?`) are modelled by a
shortest-first search, exactly as the backtracking engine explores them.
`\s` is modelled as the six ASCII whitespace characters, `.` as any
character other than a newline, `[\s\S]` as any character.
-/

namespace TemplateQueriesFix

abbrev Str := List Char

/-- The literal head of every pattern: the function name and open paren. -/
def litEQ : Str := "executeQuery(".data

/-- The row-mapping identifier inserted as third argument. -/
def mapId : Str := "mapRowToObject".data

/-- The literal first alternative of the v2 first-argument group `(query|.*?)`. -/
def queryLit : Str := "query".data

/-- Python `\s` on the ASCII range: space, tab, newline, CR, VT, FF. -/
def isPySpace (c : Char) : Bool :=
  c = ' ' || c = '\t' || c = '\n' || c = '\r' || c = '\x0b' || c = '\x0c'

/-- The character class `[^,]` of the first-argument group of v1. -/
def notComma (c : Char) : Bool := c ≠ ','

/-- The character class `[^\]]` of the array-literal interior of v1. -/
def notRBracket (c : Char) : Bool := c ≠ ']'

/-- Strip an expected literal from the front of a string; `none` when the
literal is not a prefix. -/
def dropLit : Str → Str → Option Str
  | [], s => some s
  | _ :: _, [] => none
  | a :: p, b :: s => if a = b then dropLit p s else none

/-- Captures of a v1/v2 match: first argument, whitespace after the comma,
interior of the array literal, whitespace before the closing paren, and the
text after the match. -/
structure M1 where
  g1 : Str
  ws1 : Str
  inner : Str
  ws2 : Str
  rest : Str
deriving Repr, DecidableEq

/-- Captures of a v1 pattern2 match: additionally the single captured
non-semicolon character after the closing paren. -/
structure M2 where
  g1 : Str
  ws1 : Str
  inner : Str
  ws2 : Str
  c3 : Char
  rest : Str
deriving Repr, DecidableEq

/-- Match attempt of v1 pattern1 `executeQuery\(([^,]+),\s*(\[[^\]]*\])\s*\);`
at the start of `s`.  Every quantified piece is followed by a literal its
class excludes, so the match is computed without backtracking. -/
def parseP1 (s : Str) : Option M1 :=
  match dropLit litEQ s with
  | none => none
  | some t =>
    let g1 := t.takeWhile notComma
    match t.dropWhile notComma with
    | ',' :: t2 =>
      if g1.isEmpty then none
      else
        let ws1 := t2.takeWhile isPySpace
        match t2.dropWhile isPySpace with
        | '[' :: t4 =>
          let inner := t4.takeWhile notRBracket
          match t4.dropWhile notRBracket with
          | ']' :: t6 =>
            let ws2 := t6.takeWhile isPySpace
            match t6.dropWhile isPySpace with
            | ')' :: ';' :: t8 => some ⟨g1, ws1, inner, ws2, t8⟩
            | _ => none
          | _ => none
        | _ => none
    | _ => none

/-- Match attempt of v1 pattern2
`executeQuery\(([^,]+),\s*(\[[^\]]*\])\s*\)([^;])` at the start of `s`. -/
def parseP2 (s : Str) : Option M2 :=
  match dropLit litEQ s with
  | none => none
  | some t =>
    let g1 := t.takeWhile notComma
    match t.dropWhile notComma with
    | ',' :: t2 =>
      if g1.isEmpty then none
      else
        let ws1 := t2.takeWhile isPySpace
        match t2.dropWhile isPySpace with
        | '[' :: t4 =>
          let inner := t4.takeWhile notRBracket
          match t4.dropWhile notRBracket with
          | ']' :: t6 =>
            let ws2 := t6.takeWhile isPySpace
            match t6.dropWhile isPySpace with
            | ')' :: c :: t8 => if c = ';' then none else some ⟨g1, ws1, inner, ws2, c, t8⟩
            | _ => none
          | _ => none
        | _ => none
    | _ => none

/-- The span of text consumed by a v1 pattern1 match. -/
def spanP1 (m : M1) : Str :=
  litEQ ++ m.g1 ++ ',' :: (m.ws1 ++ '[' :: (m.inner ++ ']' :: (m.ws2 ++ [')', ';'])))

/-- The span of text consumed by a v1 pattern2 match. -/
def spanP2 (m : M2) : Str :=
  litEQ ++ m.g1 ++ ',' :: (m.ws1 ++ '[' :: (m.inner ++ ']' :: (m.ws2 ++ [')', m.c3])))

/-- v1 pattern1 replacement `executeQuery(\1, \2, mapRowToObject);`. -/
def repl1 (m : M1) : Str :=
  litEQ ++ m.g1 ++ ", [".data ++ m.inner ++ "], mapRowToObject);".data

/-- v1 pattern2 replacement `executeQuery(\1, \2, mapRowToObject)\3`. -/
def repl2 (m : M2) : Str :=
  litEQ ++ m.g1 ++ ", [".data ++ m.inner ++ "], mapRowToObject)".data ++ [m.c3]

/-- Lazy search for `[\s\S]*?\]\s*\)`: the shortest interior such that the
following character is `]` and, after skipping whitespace, `)` follows.
Returns interior, the skipped whitespace and the text after the `)`. -/
def findClose : Str → Option (Str × Str × Str)
  | [] => none
  | c :: t =>
    match (if c = ']' then
             match t.dropWhile isPySpace with
             | ')' :: r => some (t.takeWhile isPySpace, r)
             | _ => none
           else none) with
    | some (w, r) => some ([], w, r)
    | none => (findClose t).map (fun x => (c :: x.1, x.2.1, x.2.2))

/-- Continuation of the v2 pattern after the comma that ends the first
argument: `\s*\(\[[\s\S]*?\]\)\s*\)`.  Returns the whitespace after the comma,
the array-literal interior, the whitespace before `)` and the rest. -/
def afterComma (t : Str) : Option (Str × Str × Str × Str) :=
  match t.dropWhile isPySpace with
  | '[' :: u =>
    match findClose u with
    | some (inner, ws2, r) => some (t.takeWhile isPySpace, inner, ws2, r)
    | none => none
  | _ => none

/-- Lazy search for the `.*?` first-argument alternative of the v2 pattern:
the shortest newline-free prefix followed by a comma whose continuation
matches `afterComma`. -/
def findG1 : Str → Option (Str × Str × Str × Str × Str)
  | [] => none
  | c :: t =>
    match (if c = ',' then afterComma t else none) with
    | some (ws1, i, w2, r) => some ([], ws1, i, w2, r)
    | none =>
      if c = '\n' then none
      else (findG1 t).map (fun x =>
        match x with
        | (g1, ws1, i, w2, r) => (c :: g1, ws1, i, w2, r))

/-- The first branch of the v2 alternation `(query|.*?)`: the literal `query`
followed by the comma and the rest of the pattern. -/
def queryAlt (t : Str) : Option (Str × Str × Str × Str) :=
  match dropLit queryLit t with
  | some (',' :: u2) => afterComma u2
  | _ => none

/-- Match attempt of the v2 pattern
`executeQuery\((query|.*?),\s*(\[[\s\S]*?\])\s*\)` at the start of `s`.
The alternation tries the literal `query` first, then the lazy `.*?`. -/
def parseV2 (s : Str) : Option M1 :=
  match dropLit litEQ s with
  | none => none
  | some t =>
    match queryAlt t with
    | some (ws1, i, w2, r) => some ⟨queryLit, ws1, i, w2, r⟩
    | none =>
      match findG1 t with
      | some (g1, ws1, i, w2, r) => some ⟨g1, ws1, i, w2, r⟩
      | none => none

/-- The span of text consumed by a v2 match. -/
def spanV2 (m : M1) : Str :=
  litEQ ++ m.g1 ++ ',' :: (m.ws1 ++ '[' :: (m.inner ++ ']' :: (m.ws2 ++ [')'])))

/-- v2 replacement `executeQuery({first_arg}, {second_arg}, mapRowToObject)`. -/
def replV2 (m : M1) : Str :=
  litEQ ++ m.g1 ++ ", [".data ++ m.inner ++ "], mapRowToObject)".data

/-- Whether `p` occurs as a contiguous substring of the second argument,
modelling Python's `in` on strings. -/
def containsStr (p : Str) : Str → Bool
  | [] => p.isEmpty
  | s@(_ :: t) => (dropLit p s).isSome || containsStr p t

/-- v2 replacer: the match itself when it already contains `mapRowToObject`
(the guard in the script), otherwise the three-argument rewrite. -/
def emitV2 (m : M1) : Str :=
  if containsStr mapId (spanV2 m) then spanV2 m else replV2 m

/-- A substitution step: at the current text, either `none` (no match starts
here) or the matched span, the emitted text and the rest of the input. -/
def stepP1 (s : Str) : Option (Str × Str × Str) :=
  (parseP1 s).map (fun m => (spanP1 m, repl1 m, m.rest))

def stepP2 (s : Str) : Option (Str × Str × Str) :=
  (parseP2 s).map (fun m => (spanP2 m, repl2 m, m.rest))

def stepV2 (s : Str) : Option (Str × Str × Str) :=
  (parseV2 s).map (fun m => (spanV2 m, emitV2 m, m.rest))

/-- The `re.sub` scan: try a match at each position; on a match emit the
replacement and resume after the match, otherwise copy one character.  The
fuel argument dominates the length of the text, so it never runs out when
called with `s.length`. -/
def scanSub (step : Str → Option (Str × Str × Str)) : Nat → Str → Str
  | 0, s => s
  | _ + 1, [] => []
  | f + 1, c :: cs =>
    match step (c :: cs) with
    | some x => x.2.1 ++ scanSub step f x.2.2
    | none => c :: scanSub step f cs

/-- First `re.sub` pass of v1. -/
def sub1 (s : Str) : Str := scanSub stepP1 s.length s

/-- Second `re.sub` pass of v1. -/
def sub2 (s : Str) : Str := scanSub stepP2 s.length s

/-- The whole v1 transform: pattern1 pass, then pattern2 pass. -/
def v1fixL (s : Str) : Str := sub2 (sub1 s)

/-- The whole v2 transform: the single guarded `re.sub`. -/
def subV2L (s : Str) : Str := scanSub stepV2 s.length s

/-- v1 transform on `String`s. -/
def v1fix (s : String) : String := ⟨v1fixL s.data⟩

/-- v2 transform on `String`s. -/
def v2fix (s : String) : String := ⟨subV2L s.data⟩

/-- One run of the v1 script on a file content: the rewritten content and the
line printed to standard output. -/
def v1Run (content : String) : String × String :=
  (v1fix content, "Fixed all executeQuery calls!")

/-- One run of the v2 script on a file content: the rewritten content and the
line printed to standard output. -/
def v2Run (content : String) : String × String :=
  (v2fix content, "Fixed all executeQuery calls (v2)!")

/-- Reassemble the input from a substitution trace: each entry is a copied gap,
a matched span and the emitted replacement; `fin` is the text after the last
match. -/
def reIn : List (Str × Str × Str) → Str → Str
  | [], fin => fin
  | x :: tl, fin => x.1 ++ x.2.1 ++ reIn tl fin

/-- Reassemble the output from a substitution trace: gaps are copied verbatim,
matched spans are replaced by the emitted text. -/
def reOut : List (Str × Str × Str) → Str → Str
  | [], fin => fin
  | x :: tl, fin => x.1 ++ x.2.2 ++ reOut tl fin

/-- Every entry of a substitution trace is a genuine match of the step
function in its true context: the span, followed by the rest of the input,
matches and produces exactly the recorded span, emission and rest. -/
def ChainOK (step : Str → Option (Str × Str × Str)) : List (Str × Str × Str) → Str → Prop
  | [], _ => True
  | x :: tl, fin =>
    step (x.2.1 ++ reIn tl fin) = some (x.2.1, x.2.2, reIn tl fin) ∧ ChainOK step tl fin

/-!  ## Theorems  -/

/-- C8: Scenario 1 (canonical rewrite).  For the input
`executeQuery(query, [id]);` both scripts produce exactly
`executeQuery(query, [id], mapRowToObject);`. -/
theorem c8_scenario1 :
    v1fix "executeQuery(query, [id]);" = "executeQuery(query, [id], mapRowToObject);" ∧
    v2fix "executeQuery(query, [id]);" = "executeQuery(query, [id], mapRowToObject);" := by
  constructor <;> rfl

/-- C7: Scenario 4 (multi-line array literal).  On the spec's example input,
both scripts emit the mapping identifier immediately before the final closing
parenthesis, and the array literal — internal line breaks and indentation
included — is reproduced byte-for-byte (it appears verbatim between the
first argument and the inserted identifier). -/
theorem c7_scenario4 :
    v1fix "executeQuery(q,\n  [\n    x,\n    y\n  ]\n);"
      = "executeQuery(q, " ++ "[\n    x,\n    y\n  ]" ++ ", mapRowToObject);" ∧
    v2fix "executeQuery(q,\n  [\n    x,\n    y\n  ]\n);"
      = "executeQuery(q, " ++ "[\n    x,\n    y\n  ]" ++ ", mapRowToObject);" := by
  constructor <;> rfl

/-- C9: Fixed success message.  The line each script prints on success is the
same for any two input file contents — it does not depend on the content nor
on how many call sites were changed. -/
theorem c9_fixed_message (c₁ c₂ : String) :
    (v1Run c₁).2 = (v1Run c₂).2 ∧ (v2Run c₁).2 = (v2Run c₂).2 :=
  ⟨rfl, rfl⟩

/-- C1 counterexample: neither transform is idempotent.  For v1, in
`executeQuery(a, [b])executeQuery(c, [d])x` the pattern2 match of the first
call captures the `e` of the second call as its `([^;])` group, so the scan
resumes inside the word `executeQuery` and the second call is only rewritten
by a second run.  For v2, the guarded match starting at the second
`executeQuery(` of the input below spans to the end and swallows the third
call; after the first run's insertion the scan carves the text differently and
the third call is rewritten by the second run. -/
theorem c1_idempotence_fails :
    v1fix (v1fix "executeQuery(a, [b])executeQuery(c, [d])x")
      ≠ v1fix "executeQuery(a, [b])executeQuery(c, [d])x" ∧
    v2fix (v2fix "executeQuery(,[])executeQuery(mapRowToObject])executeQuery(,[])")
      ≠ v2fix "executeQuery(,[])executeQuery(mapRowToObject])executeQuery(,[])" := by
  constructor <;> decide

/-- C1 amended: applying either transform twice agrees with applying it once
on each of the spec's scenario inputs (canonical call, return without
semicolon, already-normalized call, multi-line array literal, unrelated
text); full idempotence over all inputs fails for both scripts. -/
theorem c1_idempotent_on_scenarios :
    (v1fix (v1fix "executeQuery(query, [id]);") = v1fix "executeQuery(query, [id]);" ∧
     v2fix (v2fix "executeQuery(query, [id]);") = v2fix "executeQuery(query, [id]);") ∧
    (v1fix (v1fix "return executeQuery(sql, [a, b])") = v1fix "return executeQuery(sql, [a, b])" ∧
     v2fix (v2fix "return executeQuery(sql, [a, b])") = v2fix "return executeQuery(sql, [a, b])") ∧
    (v1fix (v1fix "executeQuery(sql, [a], mapRowToObject);")
       = v1fix "executeQuery(sql, [a], mapRowToObject);" ∧
     v2fix (v2fix "executeQuery(sql, [a], mapRowToObject);")
       = v2fix "executeQuery(sql, [a], mapRowToObject);") ∧
    (v1fix (v1fix "executeQuery(q,\n  [\n    x,\n    y\n  ]\n);")
       = v1fix "executeQuery(q,\n  [\n    x,\n    y\n  ]\n);" ∧
     v2fix (v2fix "executeQuery(q,\n  [\n    x,\n    y\n  ]\n);")
       = v2fix "executeQuery(q,\n  [\n    x,\n    y\n  ]\n);") ∧
    (v1fix (v1fix "const a = 1;") = v1fix "const a = 1;" ∧
     v2fix (v2fix "const a = 1;") = v2fix "const a = 1;") := by
  exact ⟨⟨rfl, rfl⟩, ⟨rfl, rfl⟩, ⟨rfl, rfl⟩, ⟨rfl, rfl⟩, ⟨rfl, rfl⟩⟩

/-- C2 counterexample: v1 has no guard.  The input
`executeQuery(q, [mapRowToObject]);` is one matched span of v1's pattern1
(its captured array interior is precisely the identifier), yet v1 rewrites
it, so the output span differs from the input span.  The claim's "this must
hold for both scripts" is false for v1. -/
theorem c2_v1_guard_missing :
    parseP1 ("executeQuery(q, [mapRowToObject]);".data)
      = some ⟨"q".data, " ".data, "mapRowToObject".data, [], []⟩ ∧
    v1fix "executeQuery(q, [mapRowToObject]);"
      = "executeQuery(q, [mapRowToObject], mapRowToObject);" ∧
    v1fix "executeQuery(q, [mapRowToObject]);" ≠ "executeQuery(q, [mapRowToObject]);" := by
  refine ⟨by decide, rfl, by decide⟩

/-- C3 counterexample: the rewrite is not a pure insertion.  On
`executeQuery(q,[x]);` (no space after the comma) both scripts emit
`executeQuery(q, [x], mapRowToObject);`: the whitespace between the comma and
the array literal is normalized to one space, so the output differs from the
input span with `, mapRowToObject` inserted before the closing parenthesis. -/
theorem c3_whitespace_normalized :
    v1fix "executeQuery(q,[x]);" = "executeQuery(q, [x], mapRowToObject);" ∧
    v2fix "executeQuery(q,[x]);" = "executeQuery(q, [x], mapRowToObject);" ∧
    v1fix "executeQuery(q,[x]);" ≠ "executeQuery(q,[x], mapRowToObject);" := by
  refine ⟨rfl, rfl, by decide⟩

/-- C5 counterexample: v2 rewrites a three-argument invocation.  Its lazy
`.*?` first-argument group absorbs commas, so in `executeQuery(a, b, [x])`
the text `a, b` before the array literal — which contains a comma — is
captured as the "first argument" and the call is rewritten. -/
theorem c5_v2_rewrites_three_args :
    v2fix "executeQuery(a, b, [x])" = "executeQuery(a, b, [x], mapRowToObject)" ∧
    v2fix "executeQuery(a, b, [x])" ≠ "executeQuery(a, b, [x])" := by
  refine ⟨rfl, by decide⟩

/-- C6 counterexample: v1 does not rewrite the no-semicolon call when it is
the last text of the document.  v1's pattern2 requires one character after
the closing parenthesis (`([^;])`), so at end of input nothing matches and
the text is returned unchanged, contradicting the claim for v1. -/
theorem c6_v1_misses_eof :
    v1fix "return executeQuery(sql, [a, b])" = "return executeQuery(sql, [a, b])" ∧
    v1fix "return executeQuery(sql, [a, b])" ≠ "return executeQuery(sql, [a, b], mapRowToObject)" := by
  refine ⟨rfl, by decide⟩

/-- C6 amended: Scenario 2 holds for v2 even at end of document, and for v1
whenever at least one character follows the closing parenthesis (here a
newline). -/
theorem c6_scenario2 :
    v2fix "return executeQuery(sql, [a, b])" = "return executeQuery(sql, [a, b], mapRowToObject)" ∧
    v1fix "return executeQuery(sql, [a, b])\n"
      = "return executeQuery(sql, [a, b], mapRowToObject)\n" := by
  constructor <;> rfl

/-! ### Helper lemmas: the literal stripper -/

theorem dropLit_eq (p : Str) : ∀ (s r : Str), dropLit p s = some r → s = p ++ r := by
  induction p with
  | nil =>
    intro s r h
    simp only [dropLit, Option.some.injEq] at h
    simp [h]
  | cons a p ih =>
    intro s r h
    cases s with
    | nil => simp [dropLit] at h
    | cons b s' =>
      simp only [dropLit] at h
      by_cases hab : a = b
      · rw [if_pos hab] at h
        subst hab
        simp [ih s' r h]
      · rw [if_neg hab] at h
        simp at h

theorem dropLit_self (p r : Str) : dropLit p (p ++ r) = some r := by
  induction p with
  | nil => simp [dropLit]
  | cons a p ih => simp [dropLit, ih]

/-! ### Helper lemmas: `takeWhile` / `dropWhile` on a decomposed list -/

theorem takeWhile_app {p : Char → Bool} {a : Char} (ha : p a = false) :
    ∀ (l : Str), (∀ c ∈ l, p c = true) → ∀ (r : Str), (l ++ a :: r).takeWhile p = l := by
  intro l
  induction l with
  | nil => intro _ r; simp [List.takeWhile_cons, ha]
  | cons c t ih =>
    intro hl r
    have hc : p c = true := hl c (List.mem_cons_self c t)
    simp only [List.cons_append, List.takeWhile_cons, hc, if_true]
    rw [ih (fun x hx => hl x (List.mem_cons_of_mem c hx)) r]

theorem dropWhile_app {p : Char → Bool} {a : Char} (ha : p a = false) :
    ∀ (l : Str), (∀ c ∈ l, p c = true) → ∀ (r : Str), (l ++ a :: r).dropWhile p = a :: r := by
  intro l
  induction l with
  | nil => intro _ r; simp [List.dropWhile_cons, ha]
  | cons c t ih =>
    intro hl r
    have hc : p c = true := hl c (List.mem_cons_self c t)
    simp only [List.cons_append, List.dropWhile_cons, hc, if_true]
    exact ih (fun x hx => hl x (List.mem_cons_of_mem c hx)) r

/-! ### Helper lemmas: the generic substitution scan -/

/-- Soundness of a step function: the matched span followed by the rest is
the input, and the span is nonempty. -/
def StepSound (step : Str → Option (Str × Str × Str)) : Prop :=
  ∀ s x, step s = some x → x.1 ++ x.2.2 = s ∧ x.1 ≠ []

theorem scanSub_congr {step : Str → Option (Str × Str × Str)} (hs : StepSound step) :
    ∀ (f₁ f₂ : Nat) (s : Str), s.length ≤ f₁ → s.length ≤ f₂ →
      scanSub step f₁ s = scanSub step f₂ s := by
  intro f₁
  induction f₁ with
  | zero =>
    intro f₂ s h₁ _
    have : s = [] := List.eq_nil_of_length_eq_zero (Nat.le_zero.mp h₁)
    subst this
    cases f₂ <;> rfl
  | succ f ih =>
    intro f₂ s h₁ h₂
    cases s with
    | nil => cases f₂ <;> rfl
    | cons c cs =>
      cases f₂ with
      | zero => simp at h₂
      | succ g =>
        cases hx : step (c :: cs) with
        | some x =>
          obtain ⟨hxe, hxne⟩ := hs _ _ hx
          have hlen : x.2.2.length + 1 ≤ (c :: cs).length := by
            have := congrArg List.length hxe
            simp only [List.length_append] at this
            have h1 : 1 ≤ x.1.length := by
              cases hn : x.1 with
              | nil => exact absurd hn hxne
              | cons y ys => simp [hn]
            simp only [List.length_cons] at this ⊢
            omega
          simp only [scanSub, hx]
          rw [ih g x.2.2 (by simp only [List.length_cons] at h₁ hlen; omega)
                (by simp only [List.length_cons] at h₂ hlen; omega)]
        | none =>
          simp only [scanSub, hx]
          rw [ih g cs (by simp only [List.length_cons] at h₁; omega)
                (by simp only [List.length_cons] at h₂; omega)]

theorem scanSub_step_eq {step : Str → Option (Str × Str × Str)} (hs : StepSound step)
    {s : Str} {x : Str × Str × Str} (h : step s = some x) :
    scanSub step s.length s = x.2.1 ++ scanSub step x.2.2.length x.2.2 := by
  obtain ⟨hxe, hxne⟩ := hs _ _ h
  cases s with
  | nil =>
    exfalso
    apply hxne
    cases hn : x.1 with
    | nil => rfl
    | cons y ys => rw [hn] at hxe; simp at hxe
  | cons c cs =>
    have hlen : x.2.2.length ≤ cs.length := by
      have := congrArg List.length hxe
      simp only [List.length_append, List.length_cons] at this
      have h1 : 1 ≤ x.1.length := by
        cases hn : x.1 with
        | nil => exact absurd hn hxne
        | cons y ys => simp [hn]
      omega
    simp only [List.length_cons, scanSub, h]
    rw [scanSub_congr hs cs.length x.2.2.length x.2.2 hlen (Nat.le_refl _)]

theorem scanSub_decomp {step : Str → Option (Str × Str × Str)} (hs : StepSound step) :
    ∀ (f : Nat) (s : Str), s.length ≤ f →
      ∃ L fin, s = reIn L fin ∧ scanSub step f s = reOut L fin ∧ ChainOK step L fin := by
  intro f
  induction f with
  | zero => intro s _; exact ⟨[], s, rfl, rfl, trivial⟩
  | succ f ih =>
    intro s hlen
    cases s with
    | nil => exact ⟨[], [], rfl, rfl, trivial⟩
    | cons c cs =>
      cases hx : step (c :: cs) with
      | some x =>
        obtain ⟨hxe, hxne⟩ := hs _ _ hx
        have hrest : x.2.2.length ≤ f := by
          have := congrArg List.length hxe
          simp only [List.length_append, List.length_cons] at this
          have h1 : 1 ≤ x.1.length := by
            cases hn : x.1 with
            | nil => exact absurd hn hxne
            | cons y ys => simp [hn]
          simp only [List.length_cons] at hlen
          omega
        obtain ⟨L, fin, hin, hout, hchain⟩ := ih x.2.2 hrest
        refine ⟨([], x.1, x.2.1) :: L, fin, ?_, ?_, ?_⟩
        · simp only [reIn, List.nil_append, ← hin]
          exact hxe.symm
        · simp only [scanSub, hx, reOut, List.nil_append, ← hout]
        · refine ⟨?_, hchain⟩
          show step (x.1 ++ reIn L fin) = some (x.1, x.2.1, reIn L fin)
          rw [← hin, hxe]
          exact hx
      | none =>
        have hcs : cs.length ≤ f := by simp only [List.length_cons] at hlen; omega
        obtain ⟨L, fin, hin, hout, hchain⟩ := ih cs hcs
        cases L with
        | nil =>
          refine ⟨[], c :: fin, ?_, ?_, trivial⟩
          · simp only [reIn] at hin ⊢
            rw [hin]
          · simp only [scanSub, hx, reOut] at *
            rw [hout]
        | cons y L' =>
          refine ⟨(c :: y.1, y.2.1, y.2.2) :: L', fin, ?_, ?_, ?_⟩
          · simp only [reIn, List.cons_append] at hin ⊢
            rw [hin]
          · simp only [scanSub, hx, reOut, List.cons_append] at hout ⊢
            rw [hout]
          · exact hchain

theorem scanSub_noLit {step : Str → Option (Str × Str × Str)}
    (hlit : ∀ s x, step s = some x → (dropLit litEQ s).isSome = true) :
    ∀ (f : Nat) (s : Str), containsStr litEQ s = false → scanSub step f s = s := by
  intro f
  induction f with
  | zero => intro s _; rfl
  | succ f ih =>
    intro s hns
    cases s with
    | nil => rfl
    | cons c cs =>
      simp only [containsStr, Bool.or_eq_false_iff] at hns
      have hstep : step (c :: cs) = none := by
        cases hx : step (c :: cs) with
        | none => rfl
        | some x =>
          have := hlit _ _ hx
          rw [hns.1] at this
          exact absurd this (by simp)
      simp only [scanSub, hstep]
      rw [ih cs hns.2]

/-! ### Helper lemmas: decomposition of successful matches -/

theorem parseP1_decomp {s : Str} {m : M1} (h : parseP1 s = some m) :
    s = spanP1 m ++ m.rest ∧ m.g1 ≠ [] ∧ (∀ c ∈ m.g1, c ≠ ',') ∧ (∀ c ∈ m.inner, c ≠ ']') := by
  simp only [parseP1] at h
  split at h
  · exact absurd h (by simp)
  · rename_i t hlit
    split at h
    · rename_i t2 hcomma
      split at h
      · exact absurd h (by simp)
      · rename_i hne
        split at h
        · rename_i t4 hbr
          split at h
          · rename_i t6 hrb
            split at h
            · rename_i t8 hclose
              have hm := Option.some.inj h
              subst hm
              have e1 : s = litEQ ++ t := dropLit_eq _ _ _ hlit
              have e2 : t = t.takeWhile notComma ++ (',' :: t2) := by
                rw [← hcomma, List.takeWhile_append_dropWhile]
              have e3 : t2 = t2.takeWhile isPySpace ++ ('[' :: t4) := by
                rw [← hbr, List.takeWhile_append_dropWhile]
              have e4 : t4 = t4.takeWhile notRBracket ++ (']' :: t6) := by
                rw [← hrb, List.takeWhile_append_dropWhile]
              have e5 : t6 = t6.takeWhile isPySpace ++ (')' :: ';' :: t8) := by
                rw [← hclose, List.takeWhile_append_dropWhile]
              have hg1mem : ∀ c ∈ t.takeWhile notComma, c ≠ ',' :=
                fun c hc => by simpa [notComma] using List.mem_takeWhile_imp hc
              have hinmem : ∀ c ∈ t4.takeWhile notRBracket, c ≠ ']' :=
                fun c hc => by simpa [notRBracket] using List.mem_takeWhile_imp hc
              have hg1ne : t.takeWhile notComma ≠ [] := by simpa using hne
              set G1 := t.takeWhile notComma with hG1
              set W1 := t2.takeWhile isPySpace with hW1
              set IN := t4.takeWhile notRBracket with hIN
              set W2 := t6.takeWhile isPySpace with hW2
              refine ⟨?_, hg1ne, hg1mem, hinmem⟩
              rw [e1, e2, e3, e4, e5]
              simp [spanP1, List.append_assoc]
            · exact absurd h (by simp)
          · exact absurd h (by simp)
        · exact absurd h (by simp)
    · exact absurd h (by simp)

theorem parseP2_decomp {s : Str} {m : M2} (h : parseP2 s = some m) :
    s = spanP2 m ++ m.rest ∧ m.g1 ≠ [] ∧ (∀ c ∈ m.g1, c ≠ ',') ∧ (∀ c ∈ m.inner, c ≠ ']') ∧
      m.c3 ≠ ';' := by
  simp only [parseP2] at h
  split at h
  · exact absurd h (by simp)
  · rename_i t hlit
    split at h
    · rename_i t2 hcomma
      split at h
      · exact absurd h (by simp)
      · rename_i hne
        split at h
        · rename_i t4 hbr
          split at h
          · rename_i t6 hrb
            split at h
            · rename_i c t8 hclose
              split at h
              · exact absurd h (by simp)
              · rename_i hcsemi
                have hm := Option.some.inj h
                subst hm
                have e1 : s = litEQ ++ t := dropLit_eq _ _ _ hlit
                have e2 : t = t.takeWhile notComma ++ (',' :: t2) := by
                  rw [← hcomma, List.takeWhile_append_dropWhile]
                have e3 : t2 = t2.takeWhile isPySpace ++ ('[' :: t4) := by
                  rw [← hbr, List.takeWhile_append_dropWhile]
                have e4 : t4 = t4.takeWhile notRBracket ++ (']' :: t6) := by
                  rw [← hrb, List.takeWhile_append_dropWhile]
                have e5 : t6 = t6.takeWhile isPySpace ++ (')' :: c :: t8) := by
                  rw [← hclose, List.takeWhile_append_dropWhile]
                have hg1mem : ∀ x ∈ t.takeWhile notComma, x ≠ ',' :=
                  fun x hx => by simpa [notComma] using List.mem_takeWhile_imp hx
                have hinmem : ∀ x ∈ t4.takeWhile notRBracket, x ≠ ']' :=
                  fun x hx => by simpa [notRBracket] using List.mem_takeWhile_imp hx
                have hg1ne : t.takeWhile notComma ≠ [] := by simpa using hne
                set G1 := t.takeWhile notComma with hG1
                set W1 := t2.takeWhile isPySpace with hW1
                set IN := t4.takeWhile notRBracket with hIN
                set W2 := t6.takeWhile isPySpace with hW2
                refine ⟨?_, hg1ne, hg1mem, hinmem, hcsemi⟩
                rw [e1, e2, e3, e4, e5]
                simp [spanP2, List.append_assoc]
            · exact absurd h (by simp)
          · exact absurd h (by simp)
        · exact absurd h (by simp)
    · exact absurd h (by simp)

theorem findClose_decomp :
    ∀ {u : Str} {x : Str × Str × Str}, findClose u = some x →
      u = x.1 ++ ']' :: (x.2.1 ++ ')' :: x.2.2) := by
  intro u
  induction u with
  | nil => intro x h; simp [findClose] at h
  | cons c t ih =>
    intro x h
    simp only [findClose] at h
    split at h
    · rename_i w r hif
      split at hif
      · rename_i hc
        split at hif
        · rename_i r2 hdrop
          have hwr := Option.some.inj hif
          have hw : t.takeWhile isPySpace = w := congrArg Prod.fst hwr
          have hr2 : r2 = r := congrArg Prod.snd hwr
          have hm := Option.some.inj h
          subst hm hc
          have e : t = t.takeWhile isPySpace ++ (')' :: r2) := by
            rw [← hdrop, List.takeWhile_append_dropWhile]
          show ']' :: t = [] ++ ']' :: (w ++ ')' :: r)
          rw [← hw, ← hr2]
          conv_lhs => rw [e]
          rfl
        · exact absurd hif (by simp)
      · exact absurd hif (by simp)
    · rename_i hif
      rw [Option.map_eq_some'] at h
      obtain ⟨y, hy, hxy⟩ := h
      have := ih hy
      subst hxy
      simp only [this]
      simp

theorem afterComma_decomp {t : Str} {x : Str × Str × Str × Str} (h : afterComma t = some x) :
    t = x.1 ++ '[' :: (x.2.1 ++ ']' :: (x.2.2.1 ++ ')' :: x.2.2.2)) := by
  simp only [afterComma] at h
  split at h
  · rename_i u hdrop
    split at h
    · rename_i i w r hfc
      have hm := Option.some.inj h
      subst hm
      have e1 : t = t.takeWhile isPySpace ++ ('[' :: u) := by
        rw [← hdrop, List.takeWhile_append_dropWhile]
      have e2 := findClose_decomp hfc
      simp only at e2
      set W := t.takeWhile isPySpace with hW
      rw [e1, e2]
    · exact absurd h (by simp)
  · exact absurd h (by simp)

theorem findG1_decomp :
    ∀ {t : Str} {x : Str × Str × Str × Str × Str}, findG1 t = some x →
      t = x.1 ++ ',' :: (x.2.1 ++ '[' :: (x.2.2.1 ++ ']' :: (x.2.2.2.1 ++ ')' :: x.2.2.2.2))) := by
  intro t
  induction t with
  | nil => intro x h; simp [findG1] at h
  | cons c u ih =>
    intro x h
    simp only [findG1] at h
    split at h
    · rename_i w1 i w2 r hif
      split at hif
      · rename_i hc
        have := afterComma_decomp hif
        have hm := Option.some.inj h
        subst hm hc
        simp only [this]
        simp
      · exact absurd hif (by simp)
    · rename_i hif
      split at h
      · exact absurd h (by simp)
      · rw [Option.map_eq_some'] at h
        obtain ⟨y, hy, hxy⟩ := h
        have := ih hy
        subst hxy
        simp only [this]
        simp

theorem queryAlt_decomp {t : Str} {x : Str × Str × Str × Str} (h : queryAlt t = some x) :
    t = queryLit ++ ',' :: (x.1 ++ '[' :: (x.2.1 ++ ']' :: (x.2.2.1 ++ ')' :: x.2.2.2))) := by
  simp only [queryAlt] at h
  split at h
  · rename_i u2 hdrop
    have e1 : t = queryLit ++ ',' :: u2 := dropLit_eq _ _ _ hdrop
    have e2 := afterComma_decomp h
    rw [e1, e2]
  · exact absurd h (by simp)

theorem parseV2_decomp {s : Str} {m : M1} (h : parseV2 s = some m) :
    s = spanV2 m ++ m.rest := by
  simp only [parseV2] at h
  split at h
  · exact absurd h (by simp)
  · rename_i t hlit
    have e1 : s = litEQ ++ t := dropLit_eq _ _ _ hlit
    split at h
    · rename_i w1 i w2 r hqa
      have e2 := queryAlt_decomp hqa
      have hm := Option.some.inj h
      subst hm
      rw [e1, e2]
      simp [spanV2, List.append_assoc]
    · split at h
      · rename_i g1 w1 i w2 r hfg
        have e2 := findG1_decomp hfg
        have hm := Option.some.inj h
        subst hm
        rw [e1, e2]
        simp [spanV2, List.append_assoc]
      · exact absurd h (by simp)

/-! ### Helper lemmas: soundness of the step functions -/

theorem spanP1_ne (m : M1) : spanP1 m ≠ [] := by
  have hl : litEQ ≠ [] := by decide
  simp [spanP1, hl]

theorem spanP2_ne (m : M2) : spanP2 m ≠ [] := by
  have hl : litEQ ≠ [] := by decide
  simp [spanP2, hl]

theorem spanV2_ne (m : M1) : spanV2 m ≠ [] := by
  have hl : litEQ ≠ [] := by decide
  simp [spanV2, hl]

theorem stepP1_sound : StepSound stepP1 := by
  intro s x h
  simp only [stepP1, Option.map_eq_some'] at h
  obtain ⟨m, hm, hx⟩ := h
  subst hx
  exact ⟨(parseP1_decomp hm).1.symm, spanP1_ne m⟩

theorem stepP2_sound : StepSound stepP2 := by
  intro s x h
  simp only [stepP2, Option.map_eq_some'] at h
  obtain ⟨m, hm, hx⟩ := h
  subst hx
  exact ⟨(parseP2_decomp hm).1.symm, spanP2_ne m⟩

theorem stepV2_sound : StepSound stepV2 := by
  intro s x h
  simp only [stepV2, Option.map_eq_some'] at h
  obtain ⟨m, hm, hx⟩ := h
  subst hx
  exact ⟨(parseV2_decomp hm).symm, spanV2_ne m⟩

theorem parseP1_lit {s : Str} {m : M1} (h : parseP1 s = some m) :
    (dropLit litEQ s).isSome = true := by
  simp only [parseP1] at h
  split at h
  · exact absurd h (by simp)
  · rename_i t hlit
    simp [hlit]

theorem parseP2_lit {s : Str} {m : M2} (h : parseP2 s = some m) :
    (dropLit litEQ s).isSome = true := by
  simp only [parseP2] at h
  split at h
  · exact absurd h (by simp)
  · rename_i t hlit
    simp [hlit]

theorem parseV2_lit {s : Str} {m : M1} (h : parseV2 s = some m) :
    (dropLit litEQ s).isSome = true := by
  simp only [parseV2] at h
  split at h
  · exact absurd h (by simp)
  · rename_i t hlit
    simp [hlit]

theorem stepP1_lit : ∀ s x, stepP1 s = some x → (dropLit litEQ s).isSome = true := by
  intro s x h
  simp only [stepP1, Option.map_eq_some'] at h
  obtain ⟨m, hm, _⟩ := h
  exact parseP1_lit hm

theorem stepP2_lit : ∀ s x, stepP2 s = some x → (dropLit litEQ s).isSome = true := by
  intro s x h
  simp only [stepP2, Option.map_eq_some'] at h
  obtain ⟨m, hm, _⟩ := h
  exact parseP2_lit hm

theorem stepV2_lit : ∀ s x, stepV2 s = some x → (dropLit litEQ s).isSome = true := by
  intro s x h
  simp only [stepV2, Option.map_eq_some'] at h
  obtain ⟨m, hm, _⟩ := h
  exact parseV2_lit hm

/-! ### Helper lemmas: matches of constructed call-site texts -/

theorem parseP1_mk {g1 ws1 inner ws2 : Str} (rest : Str) (hg : g1 ≠ [])
    (hg1 : ∀ c ∈ g1, c ≠ ',') (hw1 : ∀ c ∈ ws1, isPySpace c = true)
    (hin : ∀ c ∈ inner, c ≠ ']') (hw2 : ∀ c ∈ ws2, isPySpace c = true) :
    parseP1 (litEQ ++ (g1 ++ ',' :: (ws1 ++ '[' :: (inner ++ ']' :: (ws2 ++ ')' :: ';' :: rest)))))
      = some ⟨g1, ws1, inner, ws2, rest⟩ := by
  have hg1' : ∀ c ∈ g1, notComma c = true := fun c hc => by
    simp [notComma, hg1 c hc]
  have hin' : ∀ c ∈ inner, notRBracket c = true := fun c hc => by
    simp [notRBracket, hin c hc]
  have hca : notComma ',' = false := by decide
  have hbr : isPySpace '[' = false := by decide
  have hrb : notRBracket ']' = false := by decide
  have hpa : isPySpace ')' = false := by decide
  have hemp : g1.isEmpty = false := by
    cases g1 with
    | nil => exact absurd rfl hg
    | cons a l => rfl
  simp [parseP1, dropLit_self, takeWhile_app hca g1 hg1', dropWhile_app hca g1 hg1',
    takeWhile_app hbr ws1 hw1, dropWhile_app hbr ws1 hw1,
    takeWhile_app hrb inner hin', dropWhile_app hrb inner hin',
    takeWhile_app hpa ws2 hw2, dropWhile_app hpa ws2 hw2, hemp]

theorem parseP2_none_after {g1 ws1 inner ws2 : Str} (tail : Str)
    (hg1 : ∀ c ∈ g1, c ≠ ',') (hw1 : ∀ c ∈ ws1, isPySpace c = true)
    (hin : ∀ c ∈ inner, c ≠ ']') (hw2 : ∀ c ∈ ws2, isPySpace c = true) :
    parseP2 (litEQ ++ (g1 ++ ',' :: (ws1 ++ '[' :: (inner ++ ']' :: (ws2 ++ ',' :: tail)))))
      = none := by
  have hg1' : ∀ c ∈ g1, notComma c = true := fun c hc => by
    simp [notComma, hg1 c hc]
  have hin' : ∀ c ∈ inner, notRBracket c = true := fun c hc => by
    simp [notRBracket, hin c hc]
  have hca : notComma ',' = false := by decide
  have hbr : isPySpace '[' = false := by decide
  have hrb : notRBracket ']' = false := by decide
  have hcm : isPySpace ',' = false := by decide
  simp [parseP2, dropLit_self, takeWhile_app hca g1 hg1', dropWhile_app hca g1 hg1',
    takeWhile_app hbr ws1 hw1, dropWhile_app hbr ws1 hw1,
    takeWhile_app hrb inner hin', dropWhile_app hrb inner hin',
    takeWhile_app hcm ws2 hw2, dropWhile_app hcm ws2 hw2]

theorem findClose_mk {ws2 : Str} (r : Str) (hw2 : ∀ c ∈ ws2, isPySpace c = true) :
    ∀ (inner : Str), (∀ c ∈ inner, c ≠ ']') →
      findClose (inner ++ ']' :: (ws2 ++ ')' :: r)) = some (inner, ws2, r) := by
  have hpa : isPySpace ')' = false := by decide
  intro inner
  induction inner with
  | nil =>
    intro _
    simp [findClose, dropWhile_app hpa ws2 hw2, takeWhile_app hpa ws2 hw2]
  | cons c t ih =>
    intro hin
    have hc : c ≠ ']' := hin c (List.mem_cons_self c t)
    have ih' := ih (fun x hx => hin x (List.mem_cons_of_mem c hx))
    simp [findClose, hc, ih']

theorem afterComma_mk {ws1 inner ws2 : Str} (r : Str)
    (hw1 : ∀ c ∈ ws1, isPySpace c = true) (hin : ∀ c ∈ inner, c ≠ ']')
    (hw2 : ∀ c ∈ ws2, isPySpace c = true) :
    afterComma (ws1 ++ '[' :: (inner ++ ']' :: (ws2 ++ ')' :: r)))
      = some (ws1, inner, ws2, r) := by
  have hbr : isPySpace '[' = false := by decide
  have hfc := findClose_mk r hw2 inner hin
  simp [afterComma, dropWhile_app hbr ws1 hw1, takeWhile_app hbr ws1 hw1, hfc]

theorem findG1_mk {ws1 inner ws2 : Str} (r : Str)
    (hw1 : ∀ c ∈ ws1, isPySpace c = true) (hin : ∀ c ∈ inner, c ≠ ']')
    (hw2 : ∀ c ∈ ws2, isPySpace c = true) :
    ∀ (g1 : Str), (∀ c ∈ g1, c ≠ ',') → (∀ c ∈ g1, c ≠ '\n') →
      findG1 (g1 ++ ',' :: (ws1 ++ '[' :: (inner ++ ']' :: (ws2 ++ ')' :: r))))
        = some (g1, ws1, inner, ws2, r) := by
  intro g1
  induction g1 with
  | nil =>
    intro _ _
    have hac := afterComma_mk r hw1 hin hw2
    simp [findG1, hac]
  | cons c t ih =>
    intro hg1 hnl
    have hc : c ≠ ',' := hg1 c (List.mem_cons_self c t)
    have hn : c ≠ '\n' := hnl c (List.mem_cons_self c t)
    have ih' := ih (fun x hx => hg1 x (List.mem_cons_of_mem c hx))
          (fun x hx => hnl x (List.mem_cons_of_mem c hx))
    simp [findG1, hc, hn, ih']

theorem first_comma_eq :
    ∀ (l₁ l₂ r₁ r₂ : Str), (∀ c ∈ l₁, c ≠ ',') → (∀ c ∈ l₂, c ≠ ',') →
      l₁ ++ ',' :: r₁ = l₂ ++ ',' :: r₂ → l₁ = l₂ := by
  intro l₁
  induction l₁ with
  | nil =>
    intro l₂ r₁ r₂ _ h₂ he
    cases l₂ with
    | nil => rfl
    | cons b t₂ =>
      exfalso
      simp only [List.nil_append, List.cons_append, List.cons.injEq] at he
      exact h₂ b (List.mem_cons_self b t₂) he.1.symm
  | cons a t₁ ih =>
    intro l₂ r₁ r₂ h₁ h₂ he
    cases l₂ with
    | nil =>
      exfalso
      simp only [List.cons_append, List.nil_append, List.cons.injEq] at he
      exact h₁ a (List.mem_cons_self a t₁) he.1
    | cons b t₂ =>
      simp only [List.cons_append, List.cons.injEq] at he
      rw [he.1, ih t₂ r₁ r₂ (fun x hx => h₁ x (List.mem_cons_of_mem a hx))
            (fun x hx => h₂ x (List.mem_cons_of_mem b hx)) he.2]

theorem queryAlt_mk (u : Str) :
    queryAlt (queryLit ++ ',' :: u) = afterComma u := by
  simp [queryAlt, dropLit_self]

theorem queryAlt_none {g1 : Str} (hg1 : ∀ c ∈ g1, c ≠ ',') (hq : g1 ≠ queryLit)
    (X : Str) : queryAlt (g1 ++ ',' :: X) = none := by
  simp only [queryAlt]
  cases hd : dropLit (queryLit) (g1 ++ ',' :: X) with
  | none => rfl
  | some u =>
    have he : g1 ++ ',' :: X = queryLit ++ u := dropLit_eq _ _ _ hd
    cases u with
    | nil =>
      exfalso
      have hmem : ',' ∈ queryLit ++ ([] : Str) := by
        rw [← he]
        simp
      rw [List.append_nil] at hmem
      exact absurd hmem (by decide)
    | cons c u2 =>
      by_cases hc : c = ','
      · exfalso
        subst hc
        exact hq (first_comma_eq g1 (queryLit) X u2 hg1 (by decide) he)
      · split
        · rename_i u3 heq
          exact absurd (List.cons.inj (Option.some.inj heq)).1 hc
        · rfl

theorem parseV2_mk {g1 ws1 inner ws2 : Str} (rest : Str)
    (hg1 : ∀ c ∈ g1, c ≠ ',') (hnl : ∀ c ∈ g1, c ≠ '\n')
    (hw1 : ∀ c ∈ ws1, isPySpace c = true) (hin : ∀ c ∈ inner, c ≠ ']')
    (hw2 : ∀ c ∈ ws2, isPySpace c = true) :
    parseV2 (litEQ ++ (g1 ++ ',' :: (ws1 ++ '[' :: (inner ++ ']' :: (ws2 ++ ')' :: rest)))))
      = some ⟨g1, ws1, inner, ws2, rest⟩ := by
  by_cases hq : g1 = queryLit
  · subst hq
    have hqa : queryAlt (queryLit ++ ',' :: (ws1 ++ '[' :: (inner ++ ']' :: (ws2 ++ ')' :: rest))))
        = some (ws1, inner, ws2, rest) := by
      rw [queryAlt_mk]
      exact afterComma_mk rest hw1 hin hw2
    simp [parseV2, dropLit_self, hqa]
  · have hqa := queryAlt_none hg1 hq (ws1 ++ '[' :: (inner ++ ']' :: (ws2 ++ ')' :: rest)))
    have hfg := findG1_mk rest hw1 hin hw2 g1 hg1 hnl
    simp [parseV2, dropLit_self, hqa, hfg]

/-! ### Helper lemmas: one scan step of the top-level transforms -/

theorem sub1_step {s : Str} {m : M1} (h : parseP1 s = some m) :
    sub1 s = repl1 m ++ sub1 m.rest := by
  have hx : stepP1 s = some (spanP1 m, repl1 m, m.rest) := by simp [stepP1, h]
  exact scanSub_step_eq stepP1_sound hx

theorem subV2_step_repl {s : Str} {m : M1} (h : parseV2 s = some m)
    (hg : containsStr mapId (spanV2 m) = false) :
    subV2L s = replV2 m ++ subV2L m.rest := by
  have hx : stepV2 s = some (spanV2 m, emitV2 m, m.rest) := by simp [stepV2, h]
  have h2 := scanSub_step_eq stepV2_sound hx
  rw [show emitV2 m = replV2 m from by simp [emitV2, hg]] at h2
  exact h2

/-! ### The remaining claims -/

/-- C2 amended: the no-double-insertion invariant holds for v2.  Whenever the
v2 pattern matches at some point of the scan and the matched span already
contains `mapRowToObject` anywhere, the emitted text is byte-identical to the
matched span and the scan continues after it.  (v1 has no such guard: see the
counterexample, where a matched span containing the identifier inside its
array literal is still rewritten; v1 only avoids re-matching text whose
third-argument slot already holds the identifier.) -/
theorem c2_v2_guarded_noop (s : Str) (m : M1) (h : parseV2 s = some m)
    (hguard : containsStr mapId (spanV2 m) = true) :
    subV2L s = spanV2 m ++ subV2L m.rest := by
  have hx : stepV2 s = some (spanV2 m, emitV2 m, m.rest) := by simp [stepV2, h]
  have h2 := scanSub_step_eq stepV2_sound hx
  rw [show emitV2 m = spanV2 m from by simp [emitV2, hguard]] at h2
  exact h2

theorem c2_v2_guarded_noop_witness :
    subV2L ("executeQuery(q, [mapRowToObject])".data)
      = "executeQuery(q, [mapRowToObject])".data := by
  have h := c2_v2_guarded_noop ("executeQuery(q, [mapRowToObject])".data)
    ⟨"q".data, " ".data, "mapRowToObject".data, [], []⟩ (by decide) (by decide)
  exact h.trans (by decide)

/-- C3 amended: inside a matched span the first-argument capture and the
array-literal capture are preserved byte-for-byte, and the only other changes
are whitespace normalization: the output span is exactly
`executeQuery(` ++ g1 ++ `, [` ++ inner ++ `], mapRowToObject);` for v1's
pattern1 (resp. without the `;` for v2), i.e. the whitespace between the comma
and the array literal becomes one space and the whitespace between `]` and `)`
is removed.  When those whitespace fields are already in this canonical form,
this is precisely the single insertion the claim describes. -/
theorem c3_arguments_preserved (g1 ws1 inner ws2 rest : Str) (hg : g1 ≠ [])
    (hg1 : ∀ c ∈ g1, c ≠ ',') (hw1 : ∀ c ∈ ws1, isPySpace c = true)
    (hin : ∀ c ∈ inner, c ≠ ']') (hw2 : ∀ c ∈ ws2, isPySpace c = true) :
    sub1 (litEQ ++ (g1 ++ ',' :: (ws1 ++ '[' :: (inner ++ ']' :: (ws2 ++ ')' :: ';' :: rest)))))
      = repl1 ⟨g1, ws1, inner, ws2, rest⟩ ++ sub1 rest ∧
    ((∀ c ∈ g1, c ≠ '\n') →
      containsStr mapId (spanV2 ⟨g1, ws1, inner, ws2, rest⟩) = false →
      subV2L (litEQ ++ (g1 ++ ',' :: (ws1 ++ '[' :: (inner ++ ']' :: (ws2 ++ ')' :: rest)))))
        = replV2 ⟨g1, ws1, inner, ws2, rest⟩ ++ subV2L rest) := by
  constructor
  · exact sub1_step (parseP1_mk rest hg hg1 hw1 hin hw2)
  · intro hnl hguard
    exact subV2_step_repl (parseV2_mk rest hg1 hnl hw1 hin hw2) hguard

theorem c3_arguments_preserved_witness :
    sub1 ("executeQuery(q, [x] );".data) = "executeQuery(q, [x], mapRowToObject);".data ∧
    subV2L ("executeQuery(q, [x] )".data) = "executeQuery(q, [x], mapRowToObject)".data := by
  have h := c3_arguments_preserved ("q".data) (" ".data) ("x".data) (" ".data) []
    (by decide) (by decide) (by decide) (by decide) (by decide)
  constructor
  · exact h.1.trans (by decide)
  · exact ((h.2 (by decide)) (by decide)).trans (by decide)

/-- C4: byte preservation outside matches.  Each `re.sub` pass decomposes its
input into copied gaps, matched spans and a final segment: the input is the
interleaving of gaps and spans, the output is the same interleaving with each
span replaced by its emission, every gap and the final segment being copied
verbatim and in order; each recorded span is a genuine match of the
corresponding pattern in its true context (`ChainOK`).  In particular, text
containing no occurrence of `executeQuery(` is returned entirely unchanged by
both scripts. -/
theorem c4_frame (t : Str) :
    (∃ L fin, t = reIn L fin ∧ sub1 t = reOut L fin ∧ ChainOK stepP1 L fin) ∧
    (∃ L fin, sub1 t = reIn L fin ∧ v1fixL t = reOut L fin ∧ ChainOK stepP2 L fin) ∧
    (∃ L fin, t = reIn L fin ∧ subV2L t = reOut L fin ∧ ChainOK stepV2 L fin) ∧
    (containsStr litEQ t = false → v1fixL t = t ∧ subV2L t = t) := by
  refine ⟨?_, ?_, ?_, ?_⟩
  · exact scanSub_decomp stepP1_sound t.length t (Nat.le_refl _)
  · exact scanSub_decomp stepP2_sound (sub1 t).length (sub1 t) (Nat.le_refl _)
  · exact scanSub_decomp stepV2_sound t.length t (Nat.le_refl _)
  · intro hno
    have h1 : sub1 t = t := scanSub_noLit stepP1_lit t.length t hno
    have h2 : sub2 t = t := scanSub_noLit stepP2_lit t.length t hno
    have h3 : subV2L t = t := scanSub_noLit stepV2_lit t.length t hno
    refine ⟨?_, h3⟩
    show sub2 (sub1 t) = t
    rw [h1, h2]

theorem c4_frame_witness :
    v1fixL ("const a = 1;".data) = "const a = 1;".data ∧
    subV2L ("const a = 1;".data) = "const a = 1;".data :=
  (c4_frame ("const a = 1;".data)).2.2.2 (by decide)

/-- C5 amended: v1's patterns only recognize a comma-free first argument, so
v1 never rewrites an invocation whose text before the array literal contains
a comma (a three-or-more-argument call).  v2's lazy `.*?` group does absorb
commas, so v2 rewrites such calls — see the counterexample. -/
theorem c5_v1_first_arg_comma_free :
    (∀ (s : Str) (m : M1), parseP1 s = some m → ∀ c ∈ m.g1, c ≠ ',') ∧
    (∀ (s : Str) (m : M2), parseP2 s = some m → ∀ c ∈ m.g1, c ≠ ',') :=
  ⟨fun _ _ h => (parseP1_decomp h).2.2.1, fun _ _ h => (parseP2_decomp h).2.2.1⟩

theorem c5_v1_first_arg_comma_free_witness :
    parseP1 ("executeQuery(a, [b]);".data)
      = some ⟨"a".data, " ".data, "b".data, [], []⟩ ∧ ('a' : Char) ≠ ',' := by
  refine ⟨by decide, ?_⟩
  exact c5_v1_first_arg_comma_free.1 ("executeQuery(a, [b]);".data)
    ⟨"a".data, " ".data, "b".data, [], []⟩ (by decide) 'a' (by decide)

/-- C10: v1's two passes are disjoint.  The text produced by a pattern1
replacement is never matched by pattern2 at its start, whatever follows it:
after the replacement the characters before the closing parenthesis are
`mapRowToObject`, not a closing bracket, so the `\]\s*\)` tail of pattern2
fails (the character after the array literal's `]` is a comma).  Hence no
call site rewritten by the first pass receives a second insertion from the
second pass in the same run. -/
theorem c10_passes_disjoint (s : Str) (m : M1) (h : parseP1 s = some m) (rest : Str) :
    parseP2 (repl1 m ++ rest) = none := by
  obtain ⟨_, hg, hg1, hin⟩ := parseP1_decomp h
  have key := @parseP2_none_after m.g1 [' '] m.inner []
      (" mapRowToObject);".data ++ rest) hg1 (by decide) hin (by decide)
  have e : repl1 m ++ rest
      = litEQ ++ (m.g1 ++ ',' :: ([' '] ++ '[' ::
          (m.inner ++ ']' :: (([] : Str) ++ ',' :: (" mapRowToObject);".data ++ rest))))) := by
    simp [repl1, List.append_assoc]
  rw [e]
  exact key

theorem c10_passes_disjoint_witness :
    parseP2 (repl1 ⟨"query".data, " ".data, "id".data, [], []⟩ ++ []) = none :=
  c10_passes_disjoint ("executeQuery(query, [id]);".data)
    ⟨"query".data, " ".data, "id".data, [], []⟩ (by decide) []

end TemplateQueriesFix
